import Mathlib

/-!
Verification of the melon-chart-bot core: string normalization, fuzzy
title/artist matching, rank-delta classification, and the orchestrator's
history handling.  All definitions are shallow embeddings of the Python
source under src/; strings are modelled as lists of characters, Python
ints as Int, and Python None via Option.
-/

set_option maxHeartbeats 1000000

/-- Characters treated as whitespace by the Python regex class used in
the source (ASCII fragment of the regex whitespace class and of
str.strip): space, tab, newline, carriage return, vertical tab, form feed. -/
def isSpB (c : Char) : Bool :=
  c = ' ' || c = '\t' || c = '\n' || c = '\r' || c = Char.ofNat 11 || c = Char.ofNat 12

/-- Characters in the separator class of the regex in common.py line 10
and in each crawler's local normalizer: whitespace plus hyphen, round,
square and curly brackets, slash and backslash. -/
def isSepB (c : Char) : Bool :=
  isSpB c || c = '-' || c = '(' || c = ')' || c = '[' || c = ']' ||
    c = Char.ofNat 123 || c = Char.ofNat 125 || c = '/' || c = '\\'

/-- Python str.lower, restricted to the basic-latin case mapping. -/
def lowerL (l : List Char) : List Char := l.map Char.toLower

/-- Remove the leading run of characters satisfying q from the back of a
list: the reverse-dropWhile-reverse combination used to model the right
half of Python str.strip. -/
def rstrip (q : Char → Bool) (l : List Char) : List Char :=
  (l.reverse.dropWhile q).reverse

/-- Python str.strip: drop whitespace from both ends. -/
def stripL (l : List Char) : List Char := rstrip isSpB (l.dropWhile isSpB)

/-- re.sub of a character-class-plus pattern with a one-character
replacement: every maximal run of characters satisfying p is replaced by
the single character rep. -/
def squash (p : Char → Bool) (rep : Char) : List Char → List Char
  | [] => []
  | [c] => if p c then [rep] else [c]
  | c :: d :: cs =>
    if p c && p d then squash p rep (d :: cs)
    else (if p c then rep else c) :: squash p rep (d :: cs)

namespace common

/-- Embedding of norm from src/common.py lines 7-12: lower-case, strip,
replace each run of separator characters by one space, then collapse
whitespace runs to one space. -/
def norm (l : List Char) : List Char :=
  squash isSpB ' ' (squash isSepB ' ' (stripL (lowerL l)))

end common

/-- Python list/str containment at the start: leadsWith a b is true when
a occurs as an initial segment of b. -/
def leadsWith : List Char → List Char → Bool
  | [], _ => true
  | _ :: _, [] => false
  | a :: as, b :: bs => a == b && leadsWith as bs

/-- Python substring test a in b: a occurs contiguously somewhere in b
(the empty string occurs in everything). -/
def substr (a : List Char) : List Char → Bool
  | [] => a.isEmpty
  | c :: bs => leadsWith a (c :: bs) || substr a bs

/-- One chart row as produced by the parse collaborators: rank, raw
title, raw artist list (modelled with the fields the matcher reads;
parse_hot100 and parse_genie only emit rows with all three present). -/
structure Item where
  rank : Int
  title : List Char
  artists : List (List Char)
deriving DecidableEq

namespace crawler_melon

/-- Local normalizer of src/crawler_melon.py lines 201-205 (inside
find_rank_by_title_artist_with_alias): textually the same algorithm as
common.norm. -/
def _norm (l : List Char) : List Char :=
  squash isSpB ' ' (squash isSepB ' ' (stripL (lowerL l)))

/-- The for-loop of src/crawler_melon.py lines 213-225, scanning rows in
order with the precomputed normalized candidate lists. -/
def scanRows (q_titles_n q_artists_n : List (List Char)) : List Item → Option Int
  | [] => none
  | item :: rest =>
    let t := _norm item.title
    let a_list := item.artists.map _norm
    let title_match := q_titles_n.any fun qt => substr qt t || substr t qt
    let artist_match :=
      if q_artists_n.isEmpty then true
      else q_artists_n.any fun q => a_list.any fun a => substr q a || substr a q
    if title_match && artist_match then some item.rank
    else scanRows q_titles_n q_artists_n rest

/-- Embedding of find_rank_by_title_artist_with_alias from
src/crawler_melon.py lines 187-225: build raw candidate lists (title
first, artist only when truthy, aliases appended), keep the non-empty
raw candidates, normalize them, then scan the rows in input order. -/
def find_rank_by_title_artist_with_alias (items : List Item) (title : List Char)
    (artist : Option (List Char))
    (title_aliases artist_aliases : Option (List (List Char))) : Option Int :=
  let q_titles := [title] ++ (match title_aliases with | some l => l | none => [])
  let q_artists :=
    (match artist with
      | some a => if a.isEmpty then [] else [a]
      | none => []) ++ (match artist_aliases with | some l => l | none => [])
  let q_titles_n := (q_titles.filter (fun t => !t.isEmpty)).map _norm
  let q_artists_n := (q_artists.filter (fun a => !a.isEmpty)).map _norm
  scanRows q_titles_n q_artists_n items

end crawler_melon

namespace crawler_genie

/-- Local normalizer of src/crawler_genie.py lines 186-190 (inside
find_rank_by_title_artist_with_alias). -/
def _norm (l : List Char) : List Char :=
  squash isSpB ' ' (squash isSepB ' ' (stripL (lowerL l)))

/-- The for-loop of src/crawler_genie.py lines 198-210. -/
def scanRows (q_titles_n q_artists_n : List (List Char)) : List Item → Option Int
  | [] => none
  | item :: rest =>
    let t := _norm item.title
    let a_list := item.artists.map _norm
    let title_match := q_titles_n.any fun qt => substr qt t || substr t qt
    let artist_match :=
      if q_artists_n.isEmpty then true
      else q_artists_n.any fun q => a_list.any fun a => substr q a || substr a q
    if title_match && artist_match then some item.rank
    else scanRows q_titles_n q_artists_n rest

/-- Embedding of find_rank_by_title_artist_with_alias from
src/crawler_genie.py lines 176-210. -/
def find_rank_by_title_artist_with_alias (items : List Item) (title : List Char)
    (artist : Option (List Char))
    (title_aliases artist_aliases : Option (List (List Char))) : Option Int :=
  let q_titles := [title] ++ (match title_aliases with | some l => l | none => [])
  let q_artists :=
    (match artist with
      | some a => if a.isEmpty then [] else [a]
      | none => []) ++ (match artist_aliases with | some l => l | none => [])
  let q_titles_n := (q_titles.filter (fun t => !t.isEmpty)).map _norm
  let q_artists_n := (q_artists.filter (fun a => !a.isEmpty)).map _norm
  scanRows q_titles_n q_artists_n items

end crawler_genie

namespace main

/-- Embedding of change_emoji from src/main.py lines 49-58: the rank
movement emoji/label pair, computed from the previous rank, current rank
and whether a history file existed. -/
def change_emoji (prev curr : Option Int) (had_history_file : Bool) :
    String × String :=
  match curr with
  | none => ("🚫", "미진입")
  | some c =>
    match prev with
    | none => if had_history_file then ("🔁", "재진입") else ("🆕", "진입")
    | some p =>
      if c < p then ("🔺", "상승")
      else if c > p then ("🔻", "하락")
      else ("➖", "유지")

/-- Embedding of _result_key from src/main.py lines 28-29: the lowered
and stripped concatenation title ++ "@@" ++ artist. -/
def _result_key (title artist : List Char) : List Char :=
  stripL (lowerL (title ++ ['@', '@'] ++ artist))

/-- A persisted per-platform mapping from result key to stored integer
(rank or the -1 sentinel), modelled as an association list in insertion
order. -/
abbrev RankMap := List (List Char × Int)

/-- A value as returned by json.load, as far as _load_prev can observe
it: either a JSON object that is the expected str-to-int mapping, or any
other successfully parsed JSON value (an array, a string, an object with
non-integer values, ...), identified here by its source text.  The
loader never inspects the parsed value, so no more of its structure is
needed. -/
inductive Json
  | mapping (m : RankMap)
  | other (text : String)
deriving DecidableEq

/-- Embedding of _load_prev from src/main.py lines 31-39.  The
persistence medium is modelled explicitly: none stands for a missing
history file (p.exists() is false), some none for a file on which open
or json.load raises (the swallowed exception), and some (some j) for a
file whose contents parse as the JSON value j.  The source returns the
parsed value unchanged, whether or not it is the expected str-to-int
mapping. -/
def _load_prev (file : Option (Option Json)) : Json :=
  match file with
  | none => .mapping []
  | some none => .mapping []
  | some (some j) => j

/-- Python dict assignment on the association-list model: replace the
binding of the key if present, otherwise append it. -/
def setA : RankMap → List Char → Int → RankMap
  | [], k, v => [(k, v)]
  | (k', v') :: rest, k, v =>
    if k' = k then (k, v) :: rest else (k', v') :: setA rest k v

/-- One configured target as iterated by main (title, artist, alias
lists, declared platforms). -/
structure Target where
  title : List Char
  artist : List Char
  title_aliases : List (List Char)
  artist_aliases : List (List Char)
  platforms : List String
deriving DecidableEq

/-- The per-target per-platform body of main, src/main.py lines 116-126
(melon) and 136-146 (genie), which differ only in the matcher and chart
items used; both are instances of this definition.  Returns the integer
stored into the platform's current map (the rank, or -1 when absent) and
the emoji/label pair: the matcher result is computed, encoded with the
-1 sentinel for storage, the prior stored value is looked up and a prior
-1 is decoded back to None before change_emoji is called. -/
def process_target (find : List Item → Target → Option Int) (items : List Item)
    (prev_map : RankMap) (had_file : Bool) (t : Target) :
    Int × (String × String) :=
  let rank := find items t
  let stored : Int := match rank with | some r => r | none => -1
  let key := _result_key t.title t.artist
  let prev0 := prev_map.lookup key
  let prev : Option Int := if prev0 = some (-1) then none else prev0
  (stored, change_emoji prev rank had_file)

/-- The per-platform accumulation loop of main, src/main.py lines
98-120 (melon guard) and 135-140 (genie guard): starting from the empty
current map, each target in order that declares the platform has the
encoded matcher result stored under its result key. -/
def run_platform (find : List Item → Target → Option Int) (platform : String)
    (items : List Item) (prev_map : RankMap) (had_file : Bool)
    (targets : List Target) : RankMap :=
  targets.foldl
    (fun m t =>
      if platform ∈ t.platforms then
        setA m (_result_key t.title t.artist)
          (process_target find items prev_map had_file t).1
      else m)
    []

/-- The matcher call of src/main.py lines 116-119: the melon matcher
applied to a target's fields. -/
def melon_find (items : List Item) (t : Target) : Option Int :=
  crawler_melon.find_rank_by_title_artist_with_alias items t.title
    (some t.artist) (some t.title_aliases) (some t.artist_aliases)

end main

/-- The six movement categories of spec section 4.4. -/
inductive Movement
  | ABSENT
  | FIRST_ENTRY
  | REENTRY
  | RISEN
  | FALLEN
  | UNCHANGED
deriving DecidableEq

/-- Modelled from the spec: the six-row classification table of spec
section 4.4 (current absent dominates; previous absent splits on the
history-file flag; otherwise compare ranks, lower number better). -/
def classify_spec (prev curr : Option Int) (had_history_file : Bool) : Movement :=
  match curr with
  | none => .ABSENT
  | some c =>
    match prev with
    | none => if had_history_file then .REENTRY else .FIRST_ENTRY
    | some p =>
      if c < p then .RISEN
      else if c > p then .FALLEN
      else .UNCHANGED

/-- The fixed emoji/label presentation pair carried by each movement
label (spec section 3, Movement). -/
def movement_emoji : Movement → String × String
  | .ABSENT => ("🚫", "미진입")
  | .FIRST_ENTRY => ("🆕", "진입")
  | .REENTRY => ("🔁", "재진입")
  | .RISEN => ("🔺", "상승")
  | .FALLEN => ("🔻", "하락")
  | .UNCHANGED => ("➖", "유지")

/-- Title-hit predicate of spec section 4.2 as instantiated by the claim:
some raw-non-empty candidate among the title and its aliases has
bidirectional substring containment, after normalization, with the row's
normalized title. -/
def row_title_hit (title : List Char) (title_aliases : Option (List (List Char)))
    (it : Item) : Bool :=
  ([title] ++ title_aliases.getD []).any fun c =>
    !c.isEmpty &&
      (substr (crawler_melon._norm c) (crawler_melon._norm it.title) ||
        substr (crawler_melon._norm it.title) (crawler_melon._norm c))

/-- Artist-hit predicate of spec section 4.2 as instantiated by the
claim: the (raw-non-empty) artist candidate set is empty, or some
candidate has bidirectional containment with some of the row's
normalized artists. -/
def row_artist_hit (artist : Option (List Char))
    (artist_aliases : Option (List (List Char))) (it : Item) : Bool :=
  let cands :=
    ((match artist with
      | some a => if a.isEmpty then [] else [a]
      | none => []) ++ artist_aliases.getD []).filter fun a => !a.isEmpty
  cands.isEmpty ||
    cands.any fun q => it.artists.any fun a =>
      substr (crawler_melon._norm q) (crawler_melon._norm a) ||
        substr (crawler_melon._norm a) (crawler_melon._norm q)

/-- C1: change_emoji implements exactly the six-row movement table of
spec section 4.4: absent current gives ABSENT, absent previous gives
FIRST_ENTRY or REENTRY according to the history-file flag, and two
present ranks compare as RISEN / FALLEN / UNCHANGED with lower rank
number meaning a better position. -/
theorem change_emoji_implements_spec_table :
    ∀ (prev curr : Option Int) (had : Bool),
      main.change_emoji prev curr had = movement_emoji (classify_spec prev curr had) := by
  intro prev curr had
  cases curr with
  | none => rfl
  | some c =>
    cases prev with
    | none => cases had <;> rfl
    | some p =>
      simp only [main.change_emoji, classify_spec]
      split_ifs <;> rfl

/-- C10: the history-file flag cannot influence change_emoji outside the
case where the previous rank is absent and the current rank is present;
with the current rank absent or a previous rank recorded, any two flag
values give the same result. -/
theorem change_emoji_flag_noninterference :
    ∀ (prev curr : Option Int) (h1 h2 : Bool),
      curr = none ∨ prev ≠ none →
      main.change_emoji prev curr h1 = main.change_emoji prev curr h2 := by
  intro prev curr h1 h2 hcase
  cases curr with
  | none => rfl
  | some c =>
    cases prev with
    | none =>
      rcases hcase with hc | hp
      · exact absurd hc (by simp)
      · exact absurd rfl hp
    | some p => rfl

/-- Witness for C10 at a concrete input: previous rank 3 present, so the
flag value does not matter. -/
theorem change_emoji_flag_noninterference_witness :
    main.change_emoji (some 3) (some 5) false = main.change_emoji (some 3) (some 5) true :=
  change_emoji_flag_noninterference (some 3) (some 5) false true (Or.inr (by decide))

/-- Counterexample to C6 as stated: a history file containing the valid
JSON text [1, 2, 3] parses successfully, so the exception-swallowing
branch is never reached, and _load_prev returns the parsed non-mapping
value itself rather than an empty mapping. -/
theorem load_prev_wrong_structure_passthrough :
    main._load_prev (some (some (.other "[1, 2, 3]"))) = .other "[1, 2, 3]" ∧
    main._load_prev (some (some (.other "[1, 2, 3]"))) ≠ .mapping [] :=
  ⟨rfl, by decide⟩

/-- C6 amended: _load_prev returns the empty mapping when no history
file exists for the platform, and when opening or JSON-parsing the file
raises an exception; but persisted state that parses as JSON without
being the expected str-to-int mapping is returned as the parsed value
unchanged, not replaced by an empty mapping. -/
theorem load_prev_empty_on_missing_or_unparseable :
    main._load_prev none = .mapping [] ∧
    main._load_prev (some none) = .mapping [] ∧
    ∀ j : main.Json, main._load_prev (some (some j)) = j :=
  ⟨rfl, rfl, fun _ => rfl⟩

/-- C5: the orchestrator's sentinel encoding round-trips.  A current
rank of absent is stored as the integer -1, and a prior stored value of
-1 is decoded to absent before classification, so that with the history
file present and a present current rank the movement is the REENTRY
pair. -/
theorem sentinel_roundtrip :
    (∀ (find : List Item → main.Target → Option Int) (items : List Item)
        (prev_map : main.RankMap) (had : Bool) (t : main.Target),
        find items t = none →
        (main.process_target find items prev_map had t).1 = -1) ∧
    (∀ (find : List Item → main.Target → Option Int) (items : List Item)
        (prev_map : main.RankMap) (t : main.Target) (r : Int),
        prev_map.lookup (main._result_key t.title t.artist) = some (-1) →
        find items t = some r →
        (main.process_target find items prev_map true t).2 = ("🔁", "재진입")) := by
  constructor
  · intro find items prev_map had t hnone
    simp only [main.process_target, hnone]
  · intro find items prev_map t r hprev hsome
    simp only [main.process_target, hprev, hsome, if_pos rfl]
    rfl

/-- Witness for C5 at concrete inputs: a matcher that finds nothing
stores -1, and a prior -1 with the file present and current rank 7
classifies as REENTRY. -/
theorem sentinel_roundtrip_witness :
    (main.process_target (fun _ _ => none) []
      [] true ⟨['a'], ['b'], [], [], ["melon"]⟩).1 = -1 ∧
    (main.process_target (fun _ _ => some 7) []
      [(main._result_key ['a'] ['b'], -1)] true ⟨['a'], ['b'], [], [], ["melon"]⟩).2
      = ("🔁", "재진입") :=
  ⟨sentinel_roundtrip.1 (fun _ _ => none) [] [] true ⟨['a'], ['b'], [], [], ["melon"]⟩ rfl,
   sentinel_roundtrip.2 (fun _ _ => some 7) []
     [(main._result_key ['a'] ['b'], -1)] ⟨['a'], ['b'], [], [], ["melon"]⟩ 7
     (by decide) rfl⟩

/-- The two local normalizers are the same function. -/
theorem norm_melon_eq_genie : crawler_genie._norm = crawler_melon._norm := rfl

/-- The two row-scanning loops compute the same function. -/
theorem scanRows_melon_eq_genie :
    ∀ (qt qa : List (List Char)) (items : List Item),
      crawler_melon.scanRows qt qa items = crawler_genie.scanRows qt qa items := by
  intro qt qa items
  induction items with
  | nil => rfl
  | cons it rest ih =>
    simp only [crawler_melon.scanRows, crawler_genie.scanRows]
    rw [ih, norm_melon_eq_genie]

/-- C7: the duplicated matcher implementations in the melon and genie
crawler files compute the same function: on every items list, title,
artist and alias lists the two return equal results, so both refine the
single Matcher contract with no behavioral drift. -/
theorem find_rank_melon_eq_genie :
    ∀ (items : List Item) (title : List Char) (artist : Option (List Char))
      (title_aliases artist_aliases : Option (List (List Char))),
      crawler_melon.find_rank_by_title_artist_with_alias items title artist
          title_aliases artist_aliases =
        crawler_genie.find_rank_by_title_artist_with_alias items title artist
          title_aliases artist_aliases := by
  intro items title artist ta aa
  simp only [crawler_melon.find_rank_by_title_artist_with_alias,
    crawler_genie.find_rank_by_title_artist_with_alias, norm_melon_eq_genie]
  exact scanRows_melon_eq_genie _ _ items

/-- Title-match boolean computed by the scan loop for one row, with the
already-normalized candidate list. -/
def titleB (qt : List (List Char)) (it : Item) : Bool :=
  qt.any fun q => substr q (crawler_melon._norm it.title) ||
    substr (crawler_melon._norm it.title) q

/-- Artist-match boolean computed by the scan loop for one row, with the
already-normalized candidate list. -/
def artistB (qa : List (List Char)) (it : Item) : Bool :=
  if qa.isEmpty then true
  else qa.any fun q => (it.artists.map crawler_melon._norm).any fun a =>
    substr q a || substr a q

theorem scanRows_eq_findFirst (qt qa : List (List Char)) :
    ∀ items : List Item,
      crawler_melon.scanRows qt qa items =
        (items.find? fun it => titleB qt it && artistB qa it).map (fun it => it.rank) := by
  intro items
  induction items with
  | nil => rfl
  | cons it rest ih =>
    simp only [crawler_melon.scanRows, List.find?_cons]
    cases hb : titleB qt it && artistB qa it with
    | true =>
      have hb' := hb
      simp only [titleB, artistB] at hb'
      rw [hb']
      rfl
    | false =>
      have hb' := hb
      simp only [titleB, artistB] at hb'
      rw [hb']
      simpa using ih


theorem map_isEmpty (f : List Char → List Char) (l : List (List Char)) :
    (l.map f).isEmpty = l.isEmpty := by
  cases l <;> rfl

theorem any_filter_norm (nf : List Char → List Char) (l : List (List Char))
    (g : List Char → Bool) :
    ((l.filter fun t => !t.isEmpty).map nf).any g
      = l.any fun c => !c.isEmpty && g (nf c) := by
  induction l with
  | nil => rfl
  | cons c cs ih =>
    simp only [List.filter_cons, List.any_cons]
    cases h : c.isEmpty with
    | true => simp [h, ih]
    | false => simp [h, ih]

theorem titleB_eq (title : List Char) (ta : Option (List (List Char))) (it : Item) :
    titleB ((([title] ++ (match ta with | some l => l | none => [])).filter
        fun t => !t.isEmpty).map crawler_melon._norm) it
      = row_title_hit title ta it := by
  cases ta with
  | none =>
    simp only [titleB, row_title_hit, Option.getD_none]
    rw [any_filter_norm]
  | some l =>
    simp only [titleB, row_title_hit, Option.getD_some]
    rw [any_filter_norm]

theorem any_ext {α : Type} (l : List α) (p q : α → Bool) (h : ∀ a, p a = q a) :
    l.any p = l.any q := by
  rw [funext h]

theorem opt_getD_match (o : Option (List (List Char))) :
    (match o with | some l => l | none => ([] : List (List Char))) = o.getD [] := by
  cases o <;> rfl

theorem artistB_eq (artist : Option (List Char)) (aa : Option (List (List Char)))
    (it : Item) :
    artistB (((((match artist with
        | some a => if a.isEmpty then [] else [a]
        | none => []) : List (List Char)) ++ (match aa with | some l => l | none => [])).filter
        fun a => !a.isEmpty).map crawler_melon._norm) it
      = row_artist_hit artist aa it := by
  have hm : (match aa with | some l => l | none => ([] : List (List Char)))
      = aa.getD [] := by cases aa <;> rfl
  simp only [artistB, row_artist_hit, hm]
  rw [map_isEmpty]
  cases he : ((((match artist with
      | some a => if a.isEmpty then [] else [a]
      | none => []) : List (List Char)) ++ aa.getD []).filter fun a => !a.isEmpty).isEmpty with
  | true => simp
  | false =>
    simp only [if_neg (by decide : ¬ false = true), Bool.false_or]
    rw [List.any_map]
    apply any_ext
    intro q
    simp only [Function.comp_apply, List.any_map]
    rfl

/-- The full matcher as a single first-match search, shared by the
matcher claims. -/
theorem find_rank_eq_findFirst (items : List Item) (title : List Char)
    (artist : Option (List Char)) (ta aa : Option (List (List Char))) :
    crawler_melon.find_rank_by_title_artist_with_alias items title artist ta aa
      = (items.find? fun it => row_title_hit title ta it && row_artist_hit artist aa it).map
          (fun it => it.rank) := by
  simp only [crawler_melon.find_rank_by_title_artist_with_alias]
  rw [scanRows_eq_findFirst]
  apply congrArg (fun p => (items.find? p).map (fun it => it.rank))
  funext it
  rw [titleB_eq, artistB_eq]

/-- C2: the matcher scans the rows in input order and returns the rank
of the first row that is both a title hit (some raw-non-empty candidate
among the title and its aliases has bidirectional substring containment,
after normalization, with the row's normalized title) and an artist hit
(raw-non-empty artist candidate set empty, or some candidate has
bidirectional containment with some normalized row artist); it returns
absent when no row qualifies, and in particular on the empty row list. -/
theorem find_rank_first_matching_row :
    (∀ (items : List Item) (title : List Char) (artist : Option (List Char))
        (ta aa : Option (List (List Char))),
        crawler_melon.find_rank_by_title_artist_with_alias items title artist ta aa
          = (items.find? fun it =>
              row_title_hit title ta it && row_artist_hit artist aa it).map
              (fun it => it.rank)) ∧
    (∀ (title : List Char) (artist : Option (List Char))
        (ta aa : Option (List (List Char))),
        crawler_melon.find_rank_by_title_artist_with_alias [] title artist ta aa = none) :=
  ⟨find_rank_eq_findFirst, fun _ _ _ _ => rfl⟩

/-- C9: a non-absent matcher result is always the rank of some row of
the given items list; ranks are never fabricated. -/
theorem find_rank_mem_items :
    ∀ (items : List Item) (title : List Char) (artist : Option (List Char))
      (ta aa : Option (List (List Char))) (r : Int),
      crawler_melon.find_rank_by_title_artist_with_alias items title artist ta aa = some r →
      ∃ it ∈ items, it.rank = r := by
  intro items title artist ta aa r h
  rw [find_rank_eq_findFirst] at h
  cases hf : items.find? fun it =>
      row_title_hit title ta it && row_artist_hit artist aa it with
  | none => rw [hf] at h; exact absurd h (by simp)
  | some it =>
    rw [hf] at h
    exact ⟨it, List.mem_of_find?_eq_some hf, Option.some.inj h⟩

/-- Witness for C9 at a concrete input: title x is found at rank 1 in a
one-row chart, and that rank belongs to the row. -/
theorem find_rank_mem_items_witness :
    ∃ it ∈ [(⟨1, ['x'], []⟩ : Item)], it.rank = 1 :=
  find_rank_mem_items [⟨1, ['x'], []⟩] ['x'] none none none 1 (by decide)

/-- Counterexample to C4 as stated: the title consisting of one space is
raw-non-empty, so it survives the pre-normalization filter, normalizes to
the empty string, and then substring-matches every row; with no aliases
and no artist the matcher returns rank 1 instead of absent. -/
theorem whitespace_title_matches_everything :
    common.norm [' '] = [] ∧
    crawler_melon.find_rank_by_title_artist_with_alias
      [⟨1, ['x'], []⟩] [' '] none none none = some 1 := by
  constructor
  · rfl
  · decide

theorem scanRows_nil_titles (qa : List (List Char)) :
    ∀ items : List Item, crawler_melon.scanRows [] qa items = none := by
  intro items
  induction items with
  | nil => rfl
  | cons it rest ih => simp [crawler_melon.scanRows, ih]

/-- C4 amended: a target whose title is the empty string, and whose
title aliases are all empty strings, leaves no title candidate after the
matcher's raw-non-emptiness filter, so no row can be a title hit and the
matcher returns absent for every row list. -/
theorem find_rank_empty_title_and_aliases_absent :
    ∀ (items : List Item) (artist : Option (List Char))
      (ta aa : Option (List (List Char))),
      (∀ s ∈ ta.getD ([] : List (List Char)), s = ([] : List Char)) →
      crawler_melon.find_rank_by_title_artist_with_alias items [] artist ta aa = none := by
  intro items artist ta aa hta
  simp only [crawler_melon.find_rank_by_title_artist_with_alias, opt_getD_match]
  have hfil : ([([] : List Char)] ++ ta.getD []).filter
      (fun t => !t.isEmpty) = [] := by
    rw [List.filter_eq_nil_iff]
    intro a ha
    rcases List.mem_append.mp ha with h1 | h2
    · rcases List.mem_singleton.mp h1 with rfl; simp
    · rcases hta a h2 with rfl; simp
  rw [hfil]
  exact scanRows_nil_titles _ items

/-- Witness for amended C4 at a concrete input: empty title and one
empty alias give absent on a one-row chart. -/
theorem find_rank_empty_title_witness :
    crawler_melon.find_rank_by_title_artist_with_alias
      [⟨1, ['x'], []⟩] [] none (some [[]]) none = none :=
  find_rank_empty_title_and_aliases_absent [⟨1, ['x'], []⟩] none (some [[]]) none
    (by decide)

theorem mem_setA : ∀ (m : main.RankMap) (k : List Char) (v : Int)
    (p : List Char × Int), p ∈ main.setA m k v → p = (k, v) ∨ p ∈ m := by
  intro m k v p
  induction m with
  | nil =>
    intro h
    exact Or.inl (List.mem_singleton.mp h)
  | cons kv rest ih =>
    intro h
    simp only [main.setA] at h
    by_cases hk : kv.1 = k
    · rw [if_pos hk] at h
      rcases List.mem_cons.mp h with h1 | h2
      · exact Or.inl h1
      · exact Or.inr (List.mem_cons_of_mem _ h2)
    · rw [if_neg hk] at h
      rcases List.mem_cons.mp h with h1 | h2
      · exact Or.inr (h1 ▸ List.mem_cons_self _ _)
      · rcases ih h2 with h3 | h4
        · exact Or.inl h3
        · exact Or.inr (List.mem_cons_of_mem _ h4)

theorem foldl_run_mem (find : List Item → main.Target → Option Int)
    (platform : String) (items : List Item) (prev : main.RankMap) (had : Bool) :
    ∀ (targets : List main.Target) (m0 : main.RankMap) (p : List Char × Int),
      p ∈ targets.foldl
        (fun m t =>
          if platform ∈ t.platforms then
            main.setA m (main._result_key t.title t.artist)
              (main.process_target find items prev had t).1
          else m) m0 →
      (∃ t ∈ targets, platform ∈ t.platforms ∧
        p.1 = main._result_key t.title t.artist) ∨ p ∈ m0 := by
  intro targets
  induction targets with
  | nil => intro m0 p h; exact Or.inr h
  | cons t ts ih =>
    intro m0 p h
    rw [List.foldl_cons] at h
    rcases ih _ p h with ⟨t', ht', hpl, hk⟩ | hmem
    · exact Or.inl ⟨t', List.mem_cons_of_mem _ ht', hpl, hk⟩
    · by_cases hp : platform ∈ t.platforms
      · rw [if_pos hp] at hmem
        rcases mem_setA _ _ _ _ hmem with h1 | h2
        · exact Or.inl ⟨t, List.mem_cons_self _ _, hp, by rw [h1]⟩
        · exact Or.inr h2
      · rw [if_neg hp] at hmem
        exact Or.inr hmem

/-- C8: every key present in the mapping the orchestrator accumulates
for a platform is the result key of a configured target that declared
that platform; entries are only ever inserted inside the per-platform
guard. -/
theorem run_platform_keys_from_targets :
    ∀ (find : List Item → main.Target → Option Int) (platform : String)
      (items : List Item) (prev : main.RankMap) (had : Bool)
      (targets : List main.Target) (p : List Char × Int),
      p ∈ main.run_platform find platform items prev had targets →
      ∃ t ∈ targets, platform ∈ t.platforms ∧
        p.1 = main._result_key t.title t.artist := by
  intro find platform items prev had targets p h
  rcases foldl_run_mem find platform items prev had targets [] p h with hok | hnil
  · exact hok
  · exact absurd hnil (List.not_mem_nil p)

/-- Witness for C8 at a concrete input: the single stored pair of a
one-target melon run has that target's result key. -/
theorem run_platform_keys_witness :
    ∃ t ∈ [(⟨['a'], ['b'], [], [], ["melon"]⟩ : main.Target)],
      "melon" ∈ t.platforms ∧
        (main._result_key ['a'] ['b'], (-1 : Int)).1
          = main._result_key t.title t.artist :=
  run_platform_keys_from_targets main.melon_find "melon" [] [] true
    [⟨['a'], ['b'], [], [], ["melon"]⟩] (main._result_key ['a'] ['b'], -1)
    (by decide)

/-- No two adjacent characters of the list both satisfy p. -/
def noAdjB (p : Char → Bool) : List Char → Bool
  | [] => true
  | [_] => true
  | a :: b :: t => !(p a && p b) && noAdjB p (b :: t)

/-- The list is empty or its first character does not satisfy q. -/
def frontClean (q : Char → Bool) : List Char → Bool
  | [] => true
  | c :: _ => !q c

theorem mem_dropWhile (q : Char → Bool) :
    ∀ (l : List Char) (c : Char), c ∈ l.dropWhile q → c ∈ l := by
  intro l
  induction l with
  | nil => intro c h; exact h
  | cons a t ih =>
    intro c h
    rw [List.dropWhile_cons] at h
    by_cases ha : q a = true
    · rw [if_pos ha] at h
      exact List.mem_cons_of_mem _ (ih c h)
    · rw [if_neg ha] at h
      exact h

theorem dropWhile_frontClean (q : Char → Bool) :
    ∀ l : List Char, frontClean q (l.dropWhile q) = true := by
  intro l
  induction l with
  | nil => rfl
  | cons a t ih =>
    rw [List.dropWhile_cons]
    by_cases ha : q a = true
    · rw [if_pos ha]; exact ih
    · rw [if_neg ha]
      simp [frontClean, ha]

theorem dropWhile_eq_self (q : Char → Bool) (l : List Char)
    (h : frontClean q l = true) : l.dropWhile q = l := by
  cases l with
  | nil => rfl
  | cons a t =>
    simp only [frontClean, Bool.not_eq_true'] at h
    rw [List.dropWhile_cons, if_neg (by simp [h])]

theorem noAdj_tail (p : Char → Bool) (c : Char) (cs : List Char)
    (h : noAdjB p (c :: cs) = true) : noAdjB p cs = true := by
  cases cs with
  | nil => rfl
  | cons d t =>
    simp only [noAdjB, Bool.and_eq_true] at h
    exact h.2

theorem noAdj_dropWhile (p q : Char → Bool) :
    ∀ l : List Char, noAdjB p l = true → noAdjB p (l.dropWhile q) = true := by
  intro l
  induction l with
  | nil => intro h; exact h
  | cons a t ih =>
    intro h
    rw [List.dropWhile_cons]
    by_cases ha : q a = true
    · rw [if_pos ha]
      exact ih (noAdj_tail p a t h)
    · rw [if_neg ha]
      exact h

theorem noAdj_of_imp (s w : Char → Bool) :
    ∀ l : List Char, (∀ c ∈ l, s c = true → w c = true) →
      noAdjB w l = true → noAdjB s l = true
  | [] => fun _ _ => rfl
  | [_] => fun _ _ => rfl
  | a :: b :: t => fun himp hw => by
    simp only [noAdjB, Bool.and_eq_true, Bool.not_eq_true'] at hw ⊢
    refine ⟨?_, noAdj_of_imp s w (b :: t)
      (fun c hc hs => himp c (List.mem_cons_of_mem _ hc) hs) hw.2⟩
    cases hsa : s a with
    | false => simp
    | true =>
      cases hsb : s b with
      | false => simp
      | true =>
        have hwa := himp a (List.mem_cons_self _ _) hsa
        have hwb := himp b (List.mem_cons_of_mem _ (List.mem_cons_self _ _)) hsb
        rw [hwa, hwb] at hw
        simp at hw

theorem dropWhile_append_singleton (q : Char → Bool) :
    ∀ (xs : List Char) (c : Char),
      (xs ++ [c]).dropWhile q =
        if (xs.dropWhile q).isEmpty then [c].dropWhile q
        else xs.dropWhile q ++ [c] := by
  intro xs
  induction xs with
  | nil => intro c; simp
  | cons a t ih =>
    intro c
    rw [List.cons_append, List.dropWhile_cons, List.dropWhile_cons]
    by_cases ha : q a = true
    · rw [if_pos ha, if_pos ha, ih c]
    · rw [if_neg ha, if_neg ha]
      simp

theorem rstrip_cons (q : Char → Bool) (c : Char) (cs : List Char) :
    rstrip q (c :: cs) =
      if (cs.reverse.dropWhile q).isEmpty then (if q c then [] else [c])
      else c :: rstrip q cs := by
  show ((c :: cs).reverse.dropWhile q).reverse = _
  rw [List.reverse_cons, dropWhile_append_singleton]
  by_cases he : (cs.reverse.dropWhile q).isEmpty = true
  · rw [if_pos he, if_pos he, List.dropWhile_cons]
    by_cases hc : q c = true
    · rw [if_pos hc, if_pos hc]; rfl
    · rw [if_neg hc, if_neg hc]; rfl
  · rw [if_neg he, if_neg he, List.reverse_append]
    rfl

theorem rstrip_head (q : Char → Bool) :
    ∀ (cs : List Char) (d : Char) (t : List Char),
      rstrip q cs = d :: t → ∃ cs', cs = d :: cs' := by
  intro cs d t h
  cases cs with
  | nil => exact absurd h (by simp [rstrip])
  | cons e cs' =>
    rw [rstrip_cons] at h
    by_cases he : (cs'.reverse.dropWhile q).isEmpty = true
    · rw [if_pos he] at h
      by_cases hc : q e = true
      · rw [if_pos hc] at h; exact absurd h (by simp)
      · rw [if_neg hc] at h
        exact ⟨cs', by rw [(List.cons.inj h).1]⟩
    · rw [if_neg he] at h
      exact ⟨cs', by rw [(List.cons.inj h).1]⟩

theorem frontClean_rstrip (q : Char → Bool) (l : List Char)
    (h : frontClean q l = true) : frontClean q (rstrip q l) = true := by
  cases l with
  | nil => rfl
  | cons c cs =>
    rw [rstrip_cons]
    simp only [frontClean, Bool.not_eq_true'] at h
    by_cases he : (cs.reverse.dropWhile q).isEmpty = true
    · rw [if_pos he, if_neg (by simp [h])]
      simp [frontClean, h]
    · rw [if_neg he]
      simp [frontClean, h]

theorem noAdj_rstrip (p q : Char → Bool) :
    ∀ l : List Char, noAdjB p l = true → noAdjB p (rstrip q l) = true := by
  intro l
  induction l with
  | nil => intro h; exact h
  | cons c cs ih =>
    intro h
    rw [rstrip_cons]
    by_cases he : (cs.reverse.dropWhile q).isEmpty = true
    · rw [if_pos he]
      by_cases hc : q c = true
      · rw [if_pos hc]; rfl
      · rw [if_neg hc]; rfl
    · rw [if_neg he]
      have htail := ih (noAdj_tail p c cs h)
      cases hr : rstrip q cs with
      | nil => rfl
      | cons d t =>
        rcases rstrip_head q cs d t hr with ⟨cs', rfl⟩
        rw [hr] at htail
        simp only [noAdjB, Bool.and_eq_true] at h ⊢
        exact ⟨h.1, htail⟩

theorem rstrip_backClean (q : Char → Bool) (l : List Char) :
    frontClean q (rstrip q l).reverse = true := by
  show frontClean q (l.reverse.dropWhile q).reverse.reverse = true
  rw [List.reverse_reverse]
  exact dropWhile_frontClean q l.reverse

theorem mem_rstrip (q : Char → Bool) (l : List Char) (c : Char)
    (h : c ∈ rstrip q l) : c ∈ l := by
  rw [rstrip, List.mem_reverse] at h
  exact List.mem_reverse.mp (mem_dropWhile q l.reverse c h)

theorem mem_stripL (l : List Char) (c : Char) (h : c ∈ stripL l) : c ∈ l :=
  mem_dropWhile isSpB l c (mem_rstrip isSpB _ c h)

theorem stripL_frontClean (l : List Char) :
    frontClean isSpB (stripL l) = true :=
  frontClean_rstrip isSpB _ (dropWhile_frontClean isSpB l)

theorem stripL_backClean (l : List Char) :
    frontClean isSpB (stripL l).reverse = true :=
  rstrip_backClean isSpB _

theorem noAdj_stripL (p : Char → Bool) (l : List Char)
    (h : noAdjB p l = true) : noAdjB p (stripL l) = true :=
  noAdj_rstrip p isSpB _ (noAdj_dropWhile p isSpB l h)

theorem stripL_eq_self (l : List Char) (hf : frontClean isSpB l = true)
    (hb : frontClean isSpB l.reverse = true) : stripL l = l := by
  show rstrip isSpB (l.dropWhile isSpB) = l
  rw [dropWhile_eq_self isSpB l hf]
  show (l.reverse.dropWhile isSpB).reverse = l
  rw [dropWhile_eq_self isSpB l.reverse hb, List.reverse_reverse]

theorem stripL_idem (l : List Char) : stripL (stripL l) = stripL l :=
  stripL_eq_self _ (stripL_frontClean l) (stripL_backClean l)

theorem mem_squash (p : Char → Bool) (rep : Char) :
    ∀ (l : List Char) (c : Char), c ∈ squash p rep l →
      c = rep ∨ (c ∈ l ∧ p c = false)
  | [], c => fun h => absurd h (List.not_mem_nil c)
  | [d], c => fun h => by
    simp only [squash] at h
    by_cases hd : p d = true
    · rw [if_pos hd] at h
      exact Or.inl (List.mem_singleton.mp h)
    · rw [if_neg hd] at h
      rcases List.mem_singleton.mp h with rfl
      exact Or.inr ⟨List.mem_singleton.mpr rfl, Bool.not_eq_true _ ▸ hd⟩
  | d :: e :: cs, c => fun h => by
    simp only [squash] at h
    by_cases hde : (p d && p e) = true
    · rw [if_pos hde] at h
      rcases mem_squash p rep (e :: cs) c h with h1 | ⟨h2, h3⟩
      · exact Or.inl h1
      · exact Or.inr ⟨List.mem_cons_of_mem _ h2, h3⟩
    · rw [if_neg hde] at h
      rcases List.mem_cons.mp h with h1 | h2
      · by_cases hd : p d = true
        · rw [if_pos hd] at h1; exact Or.inl h1
        · rw [if_neg hd] at h1
          exact Or.inr ⟨h1 ▸ List.mem_cons_self _ _,
            h1 ▸ (Bool.not_eq_true _ ▸ hd)⟩
      · rcases mem_squash p rep (e :: cs) c h2 with h1 | ⟨h3, h4⟩
        · exact Or.inl h1
        · exact Or.inr ⟨List.mem_cons_of_mem _ h3, h4⟩

theorem squash_head (p : Char → Bool) (rep : Char) (hrep : p rep = true) :
    ∀ (d : Char) (cs : List Char),
      ∃ e t, squash p rep (d :: cs) = e :: t ∧ p e = p d := by
  intro d cs
  induction cs generalizing d with
  | nil =>
    by_cases hd : p d = true
    · exact ⟨rep, [], by simp [squash, hd], by rw [hrep, hd]⟩
    · exact ⟨d, [], by simp [squash, hd], rfl⟩
  | cons e cs ih =>
    by_cases hde : (p d && p e) = true
    · rcases ih e with ⟨f, t, hf, hpf⟩
      have hd := (Bool.and_eq_true _ _).mp hde
      exact ⟨f, t, by simp only [squash, if_pos hde]; exact hf,
        by rw [hpf, hd.1, hd.2]⟩
    · by_cases hd : p d = true
      · exact ⟨rep, squash p rep (e :: cs),
          by simp only [squash, if_neg hde, if_pos hd], by rw [hrep, hd]⟩
      · exact ⟨d, squash p rep (e :: cs),
          by simp only [squash, if_neg hde, if_neg hd], rfl⟩

theorem noAdj_squash (p : Char → Bool) (rep : Char) (hrep : p rep = true) :
    ∀ l : List Char, noAdjB p (squash p rep l) = true
  | [] => rfl
  | [c] => by
    simp only [squash]
    by_cases hc : p c = true
    · rw [if_pos hc]; rfl
    · rw [if_neg hc]; rfl
  | c :: d :: cs => by
    simp only [squash]
    by_cases hcd : (p c && p d) = true
    · rw [if_pos hcd]
      exact noAdj_squash p rep hrep (d :: cs)
    · rw [if_neg hcd]
      rcases squash_head p rep hrep d cs with ⟨e, t, he, hpe⟩
      rw [he]
      have htail : noAdjB p (e :: t) = true := he ▸ noAdj_squash p rep hrep (d :: cs)
      simp only [noAdjB, Bool.and_eq_true]
      constructor
      · by_cases hc : p c = true
        · rw [if_pos hc, hpe]
          cases hd : p d with
          | true => rw [hc, hd] at hcd; simp at hcd
          | false => simp [hrep]
        · rw [if_neg hc, hpe]
          simp [Bool.not_eq_true _ ▸ hc]
      · exact htail

theorem squash_id (p : Char → Bool) (rep : Char) :
    ∀ l : List Char, (∀ c ∈ l, p c = true → c = rep) →
      noAdjB p l = true → squash p rep l = l
  | [] => fun _ _ => rfl
  | [c] => fun hall _ => by
    simp only [squash]
    by_cases hc : p c = true
    · rw [if_pos hc, hall c (List.mem_singleton.mpr rfl) hc]
    · rw [if_neg hc]
  | c :: d :: cs => fun hall hadj => by
    simp only [squash]
    have hadj' : noAdjB p (d :: cs) = true := noAdj_tail p c _ hadj
    have hcd : (p c && p d) ≠ true := by
      simp only [noAdjB, Bool.and_eq_true, Bool.not_eq_true'] at hadj
      simp [hadj.1]
    rw [if_neg hcd,
      squash_id p rep (d :: cs) (fun a ha hpa => hall a (List.mem_cons_of_mem _ ha) hpa) hadj']
    by_cases hc : p c = true
    · rw [if_pos hc, hall c (List.mem_cons_self _ _) hc]
    · rw [if_neg hc]

theorem char_toNat_ofNat (n : Nat) (h : n.isValidChar) :
    (Char.ofNat n).toNat = n := by
  unfold Char.ofNat
  rw [dif_pos h]
  rfl

theorem toLower_idem (c : Char) : c.toLower.toLower = c.toLower := by
  simp only [Char.toLower]
  by_cases h : c.toNat ≥ 65 ∧ c.toNat ≤ 90
  · rw [if_pos h]
    have hv : (c.toNat + 32).isValidChar := Or.inl (by omega)
    rw [char_toNat_ofNat _ hv, if_neg (by omega)]
  · rw [if_neg h, if_neg h]

theorem toLower_space : Char.toLower ' ' = ' ' := by decide

theorem sp_imp_sep (c : Char) (h : isSpB c = true) : isSepB c = true := by
  simp [isSepB, h]

theorem sep_to_space (x : List Char) :
    ∀ c ∈ common.norm x, isSepB c = true → c = ' ' := by
  intro c hc hsep
  rcases mem_squash isSpB ' ' _ c hc with rfl | ⟨h2, _⟩
  · rfl
  rcases mem_squash isSepB ' ' _ c h2 with rfl | ⟨_, h5⟩
  · rfl
  rw [hsep] at h5
  exact absurd h5 (by simp)

theorem lower_fixed (x : List Char) :
    ∀ c ∈ common.norm x, c.toLower = c := by
  intro c hc
  rcases mem_squash isSpB ' ' _ c hc with rfl | ⟨h2, _⟩
  · exact toLower_space
  rcases mem_squash isSepB ' ' _ c h2 with rfl | ⟨h4, _⟩
  · exact toLower_space
  rcases List.mem_map.mp (mem_stripL (lowerL x) c h4) with ⟨d, _, rfl⟩
  exact toLower_idem d

theorem noAdj_sep_norm (x : List Char) :
    noAdjB isSepB (common.norm x) = true := by
  have h1 : noAdjB isSpB (common.norm x) = true :=
    noAdj_squash isSpB ' ' (by decide) _
  exact noAdj_of_imp isSepB isSpB _
    (fun c hc hsep => by rw [sep_to_space x c hc hsep]; decide) h1

theorem norm_eq_stripL_of_canon (z : List Char)
    (hlow : ∀ c ∈ z, c.toLower = c)
    (hsep : ∀ c ∈ z, isSepB c = true → c = ' ')
    (hadj : noAdjB isSepB z = true) :
    common.norm z = stripL z := by
  have hl : lowerL z = z := by
    show z.map Char.toLower = z
    rw [List.map_congr_left hlow]
    exact List.map_id z
  show squash isSpB ' ' (squash isSepB ' ' (stripL (lowerL z))) = stripL z
  rw [hl]
  have hsep' : ∀ c ∈ stripL z, isSepB c = true → c = ' ' :=
    fun c hc => hsep c (mem_stripL z c hc)
  have hadj' : noAdjB isSepB (stripL z) = true := noAdj_stripL isSepB z hadj
  rw [squash_id isSepB ' ' (stripL z) hsep' hadj']
  apply squash_id isSpB ' ' (stripL z)
  · intro c hc hsp
    exact hsep' c hc (sp_imp_sep c hsp)
  · exact noAdj_of_imp isSpB isSepB _ (fun c _ h => sp_imp_sep c h) hadj'

/-- Counterexample to C3 as stated: norm is not idempotent.  On the
input a followed by a hyphen, stripping runs before the separator
substitution, so the first pass yields the letter a followed by one
space, and a second pass strips that trailing space. -/
theorem norm_not_idempotent :
    common.norm (common.norm ['a', '-']) ≠ common.norm ['a', '-'] := by decide

/-- C3 amended: the normalizer is idempotent after one application: for
every input x, norm (norm (norm x)) = norm (norm x); a second
application only strips the edge whitespace that edge separator
characters leave behind, and from then on the value is fixed. -/
theorem norm_norm_idempotent :
    ∀ x : List Char,
      common.norm (common.norm (common.norm x)) = common.norm (common.norm x) := by
  intro x
  have h1 : common.norm (common.norm x) = stripL (common.norm x) :=
    norm_eq_stripL_of_canon _ (lower_fixed x) (sep_to_space x) (noAdj_sep_norm x)
  have h2 : common.norm (stripL (common.norm x)) = stripL (stripL (common.norm x)) :=
    norm_eq_stripL_of_canon _
      (fun c hc => lower_fixed x c (mem_stripL _ c hc))
      (fun c hc => sep_to_space x c (mem_stripL _ c hc))
      (noAdj_stripL isSepB _ (noAdj_sep_norm x))
  calc common.norm (common.norm (common.norm x))
      = common.norm (stripL (common.norm x)) := by rw [h1]
    _ = stripL (stripL (common.norm x)) := h2
    _ = stripL (common.norm x) := stripL_idem _
    _ = common.norm (common.norm x) := h1.symm
